import Mathlib

/-!
Verification of the magnet-URI parser (package magnet, files magnet.go and
magnet_test.go) against its natural-language specification.

The Go code is shallowly embedded: Go strings become `List Char`, Go byte
slices become `List Nat`, Go errors and runtime panics become constructors of
the `Err` type (panics are kept as distinct constructors, since a Go panic is
an observable crash distinct from a returned error), and the stateful
`*Magnet` receiver becomes explicit state passing.  The hash-scheme table
`HashTypeMap` is a Go map iterated in unspecified order; it is embedded as a
list in source order, and order-independence of the lookup is proved
separately (claim C9).
-/

namespace MagnetModel

/-- Go strings are modelled as lists of characters. -/
abbrev Str := List Char

/-- Convenience: turn a Lean string literal into the `Str` model type. -/
def mstr (s : String) : Str := s.data

/-! ## strings package primitives -/

/-- First occurrence of the (non-empty) separator `sep` in `s`: returns the
text before it and the text after it, or `none` when `sep` does not occur. -/
def breakOn (sep : Str) : Str → Option (Str × Str)
  | [] => none
  | c :: rest =>
    if List.isPrefixOf sep (c :: rest) then some ([], (c :: rest).drop sep.length)
    else
      match breakOn sep rest with
      | some (pre, post) => some (c :: pre, post)
      | none => none

/-- Fuelled worker for `goSplit`. -/
def splitFuel (sep : Str) : Nat → Str → List Str
  | 0, s => [s]
  | f + 1, s =>
    match breakOn sep s with
    | none => [s]
    | some (pre, post) => pre :: splitFuel sep f post

/-- Model of Go `strings.Split(s, sep)` for non-empty `sep`: split around each
non-overlapping occurrence of `sep`, scanning left to right. -/
def goSplit (sep s : Str) : List Str := splitFuel sep (s.length + 1) s

/-- Fuelled worker for `goSplitAfterN`. -/
def splitAfterFuel (sep : Str) : Nat → Nat → Str → List Str
  | _, 0, _ => []
  | _, 1, s => [s]
  | 0, _, s => [s]
  | f + 1, n + 2, s =>
    match breakOn sep s with
    | none => [s]
    | some (pre, post) => (pre ++ sep) :: splitAfterFuel sep f (n + 1) post

/-- Model of Go `strings.SplitAfterN(s, sep, n)` for `n ≥ 0`: at most `n`
pieces, each piece keeping its trailing separator, the last piece unsplit.
In particular `n = 1` always yields the single piece `[s]`. -/
def goSplitAfterN (sep : Str) (n : Nat) (s : Str) : List Str :=
  splitAfterFuel sep (s.length + 1) n s

/-- ASCII lower-casing of one character (model of Go `strings.ToLower`, which
the parser only ever applies to ASCII scheme and key text). -/
def lowChar (c : Char) : Char :=
  if 'A' ≤ c ∧ c ≤ 'Z' then Char.ofNat (c.toNat + 32) else c

/-- Model of Go `strings.ToLower`. -/
def toLowerStr (s : Str) : Str := s.map lowChar

/-! ## encoding/base32 (StdEncoding, padded) -/

/-- Value of one character in the standard base-32 alphabet
`ABCDEFGHIJKLMNOPQRSTUVWXYZ234567`; `none` for characters outside it
(Go's decodeMap yields 0xFF there, an error). -/
def b32Val (c : Char) : Option Nat :=
  if 'A' ≤ c ∧ c ≤ 'Z' then some (c.toNat - 65)
  else if '2' ≤ c ∧ c ≤ '7' then some (c.toNat - 50 + 26)
  else none

/-- Go's padding scan: the next `n` characters, as far as they exist, must all
be `=` (positions beyond the end of the input are not checked). -/
def padOk : Str → Nat → Bool
  | _, 0 => true
  | [], _ + 1 => true
  | c :: rest, n + 1 => c = '=' && padOk rest n

/-- One quantum of Go's base-32 decode loop: reads up to 8 characters,
returning the collected 5-bit values, the count `dlen` of data characters,
the remaining input and the end flag.  `none` is any CorruptInputError. -/
def b32Block : Nat → Nat → List Nat → Str → Option (List Nat × Nat × Str × Bool)
  | 0, j, acc, src => some (acc, j, src, false)
  | fuel + 1, j, acc, src =>
    match src with
    | [] => none
    | c :: rest =>
      if c = '=' ∧ 2 ≤ j ∧ rest.length < 8 then
        if rest.length + j < 7 then none
        else if padOk rest (7 - j) = false then none
        else if j = 1 ∨ j = 3 ∨ j = 6 then none
        else some (acc, j, rest, true)
      else
        match b32Val c with
        | none => none
        | some d => b32Block fuel (j + 1) (acc ++ [d]) rest

/-- Reassembly of one base-32 quantum into output bytes, following Go's
fall-through switch on `dlen` (bit operations written with explicit `%`,
`*`, `/` on `Nat`; the inputs are 5-bit values). -/
def b32Assemble (acc : List Nat) (dlen : Nat) : Option (List Nat) :=
  let g := fun i => acc.getD i 0
  if dlen = 8 then
    some [g 0 * 8 + g 1 / 4, (g 1 % 4) * 64 + g 2 * 2 + g 3 / 16,
          (g 3 % 16) * 16 + g 4 / 2, (g 4 % 2) * 128 + g 5 * 4 + g 6 / 8,
          (g 6 % 8) * 32 + g 7]
  else if dlen = 7 then
    some [g 0 * 8 + g 1 / 4, (g 1 % 4) * 64 + g 2 * 2 + g 3 / 16,
          (g 3 % 16) * 16 + g 4 / 2, (g 4 % 2) * 128 + g 5 * 4 + g 6 / 8]
  else if dlen = 5 then
    some [g 0 * 8 + g 1 / 4, (g 1 % 4) * 64 + g 2 * 2 + g 3 / 16,
          (g 3 % 16) * 16 + g 4 / 2]
  else if dlen = 4 then
    some [g 0 * 8 + g 1 / 4, (g 1 % 4) * 64 + g 2 * 2 + g 3 / 16]
  else if dlen = 2 then
    some [g 0 * 8 + g 1 / 4]
  else none

/-- Outer loop of Go's base-32 decode: process quanta while input remains and
no padding has ended the data. -/
def b32Loop : Nat → List Nat → Str → Option (List Nat)
  | 0, acc, _ => some acc
  | f + 1, acc, src =>
    match src with
    | [] => some acc
    | _ :: _ =>
      match b32Block 8 0 [] src with
      | none => none
      | some (vals, dlen, rest, ended) =>
        match b32Assemble vals dlen with
        | none => none
        | some bytes => if ended then some (acc ++ bytes) else b32Loop f (acc ++ bytes) rest

/-- Model of Go `base32.StdEncoding.DecodeString`: newlines are stripped first
(Go's stripNewlines), then quanta are decoded; `none` is any error. -/
def goBase32Decode (s : Str) : Option (List Nat) :=
  let t := s.filter (fun c => c ≠ '\n' ∧ c ≠ '\r')
  b32Loop (t.length + 1) [] t

/-! ## encoding/hex -/

/-- Value of a hexadecimal digit, upper or lower case. -/
def hexVal (c : Char) : Option Nat :=
  if '0' ≤ c ∧ c ≤ '9' then some (c.toNat - 48)
  else if 'a' ≤ c ∧ c ≤ 'f' then some (c.toNat - 87)
  else if 'A' ≤ c ∧ c ≤ 'F' then some (c.toNat - 55)
  else none

/-- Model of Go `hex.DecodeString`: pairs of hex digits; an odd-length input
or a non-hex character is an error (`none`). -/
def goHexDecode : Str → Option (List Nat)
  | [] => some []
  | [_] => none
  | a :: b :: rest =>
    match hexVal a, hexVal b with
    | some x, some y => (goHexDecode rest).map (fun l => (16 * x + y) :: l)
    | _, _ => none

/-! ## strconv -/

/-- Digit accumulation for `goParseInt`. -/
def digitsAux : Str → Nat → Option Nat
  | [], acc => some acc
  | c :: rest, acc =>
    if '0' ≤ c ∧ c ≤ '9' then digitsAux rest (acc * 10 + (c.toNat - 48)) else none

/-- A non-empty all-digit string as a natural number. -/
def digitsGo (s : Str) : Option Nat :=
  match s with
  | [] => none
  | _ => digitsAux s 0

/-- Model of Go `strconv.ParseInt(s, 10, 64)` (and `strconv.Atoi` on a 64-bit
platform): optional sign, one or more decimal digits, 64-bit range check.
`none` is any error (syntax or range). -/
def goParseInt (s : Str) : Option Int :=
  match s with
  | [] => none
  | c :: rest =>
    let neg := c = '-'
    let ds := if c = '-' ∨ c = '+' then rest else s
    match digitsGo ds with
    | none => none
    | some n =>
      if neg then (if n ≤ 2 ^ 63 then some (-(n : Int)) else none)
      else (if n < 2 ^ 63 then some ((n : Int)) else none)

/-! ## net/url -/

/-- Model of Go `url.QueryUnescape`: percent-escapes become the escaped byte,
`+` becomes a space; a `%` not followed by two hex digits is an error. -/
def goQueryUnescape : Str → Option Str
  | [] => some []
  | '%' :: rest =>
    match rest with
    | a :: b :: rest2 =>
      match hexVal a, hexVal b with
      | some x, some y => (goQueryUnescape rest2).map (fun t => Char.ofNat (16 * x + y) :: t)
      | _, _ => none
    | _ => none
  | '+' :: rest => (goQueryUnescape rest).map (fun t => ' ' :: t)
  | c :: rest => (goQueryUnescape rest).map (fun t => c :: t)

/-- Shallow model of Go `url.Parse` as used by the AcceptableSource branch:
it rejects ASCII control characters and otherwise records the raw string.
No claim in this development depends on the structure of a parsed URL, only
on success and on which list the value is appended to. -/
def goUrlParse (s : Str) : Option Str :=
  if s.any (fun c => c.toNat < 32 ∨ c.toNat = 127) then none else some s

/-! ## Data model (magnet.go) -/

/-- Hash types (Go `HashType` constants). -/
inductive HashType where
  | HashTTH
  | HashSHA1
  | HashBitPrint
  | HashED2K
  | HashAICH
  | HashKazaa
  | HashBTIH
  | HashMD5
deriving DecidableEq

export HashType (HashTTH HashSHA1 HashBitPrint HashED2K HashAICH HashKazaa HashBTIH HashMD5)

/-- Key types (Go `KeyType` constants). -/
inductive KeyType where
  | KeyAcceptableSource
  | KeyDisplayName
  | KeyKeywordTopic
  | KeyManifestTopic
  | KeyTrackerAddress
  | KeyExactLength
  | KeyExactSource
  | KeyExactTopic
  | KeySuplement
deriving DecidableEq

export KeyType (KeyAcceptableSource KeyDisplayName KeyKeywordTopic KeyManifestTopic
  KeyTrackerAddress KeyExactLength KeyExactSource KeyExactTopic KeySuplement)

/-- Go `Hash` struct; the field `Type` is renamed `Typ` because `Type` is
reserved in Lean. -/
structure Hash where
  Typ : HashType
  Data : List Nat
deriving DecidableEq

/-- Go `URN` struct. -/
structure URN where
  Hashes : List Hash
deriving DecidableEq

/-- Go `Suplement` struct. -/
structure Suplement where
  Key : Str
  Val : Str
deriving DecidableEq

/-- A manifest topic is either a parsed URN or a string (Go stores both in a
`[]interface{}`; the spec describes it as a tagged union). -/
inductive MTopic where
  | urn (u : URN)
  | str (s : Str)
deriving DecidableEq

/-- Go `Magnet` struct.  URLs are carried as their raw strings (see
`goUrlParse`); the `Suplements` map is represented as an association list,
but note that in Go it is a nil map (see `parseKeyVal`). -/
structure Magnet where
  AcceptableSources : List Str := []
  DisplayNames : List Str := []
  KeywordTopics : List Str := []
  ManifestTopics : List MTopic := []
  TrackerAddresses : List Str := []
  ExactLength : Int := 0
  ExactSources : List Str := []
  ExactTopics : List URN := []
  Suplements : List (Str × List Suplement) := []
deriving DecidableEq

/-- Go `magnetKey` struct; the field `Type` is renamed `Typ`. -/
structure magnetKey where
  Typ : KeyType
  Indx : Int
  Supl : Str
deriving DecidableEq

/-- Returned errors and runtime panics of the parser.  The Go code returns
only `ErrInvalidMagnet` plus errors propagated from the standard library; the
`panic` constructors model Go runtime panics, which are crashes rather than
returned errors. -/
inductive Err where
  | invalidMagnet
  | base32Err
  | hexErr
  | intErr
  | escapeErr
  | urlErr
  | panicSliceRange
  | panicIndexRange
  | panicNilMap
deriving DecidableEq

/-- Result type of the embedded fallible functions. -/
inductive Res (α : Type) where
  | ok (a : α)
  | err (e : Err)
deriving DecidableEq

/-- Go `HashTypeMap`, written in source order.  Go iterates this map in
unspecified order; order-independence is proved in claim C9. -/
def hashTagList : List (Str × HashType) :=
  [(mstr "tree:tiger", HashTTH), (mstr "sha1", HashSHA1), (mstr "bitprint", HashBitPrint),
   (mstr "ed2k", HashED2K), (mstr "aich", HashAICH), (mstr "kzhash", HashKazaa),
   (mstr "btih", HashBTIH), (mstr "md5", HashMD5)]

/-- Go `KeyTypeMap`. -/
def keyTypeList : List (Str × KeyType) :=
  [(mstr "as", KeyAcceptableSource), (mstr "dn", KeyDisplayName), (mstr "kt", KeyKeywordTopic),
   (mstr "mt", KeyManifestTopic), (mstr "tr", KeyTrackerAddress), (mstr "xl", KeyExactLength),
   (mstr "xs", KeyExactSource), (mstr "xt", KeyExactTopic), (mstr "x.", KeySuplement)]

/-- Exact-key lookup in `KeyTypeMap` (Go map indexing with a string key). -/
def keyTypeLookup (s : Str) : Option KeyType :=
  (keyTypeList.find? (fun p => p.1 == s)).map Prod.snd

/-- The scheme-tag scan of `newURN`: the first list entry whose tag is a
prefix of the (already lowered) URN text. -/
def findScheme : List (Str × HashType) → Str → Option (Str × HashType)
  | [], _ => none
  | p :: rest, low => if List.isPrefixOf p.1 low then some p else findScheme rest low

/-- The `switch ht` of `newURN`, given the already extracted payload `hd`.
`HashMD5` falls through the switch with no case, yielding an empty URN and no
error, exactly as in the source. -/
def hashSwitch (ht : HashType) (hd : Str) : Res URN :=
  if ht = HashTTH ∨ ht = HashSHA1 ∨ ht = HashAICH then
    match goBase32Decode hd with
    | none => .err .base32Err
    | some d => .ok ⟨[⟨ht, d⟩]⟩
  else if ht = HashED2K ∨ ht = HashKazaa ∨ ht = HashBTIH then
    match goHexDecode hd with
    | none => .err .hexErr
    | some d => .ok ⟨[⟨ht, d⟩]⟩
  else if ht = HashBitPrint then
    let b := goSplit (mstr ".") hd
    if b.length ≠ 2 then .err .invalidMagnet
    else
      match goBase32Decode (b.getD 0 []) with
      | none => .err .base32Err
      | some d1 =>
        match goBase32Decode (b.getD 1 []) with
        | none => .err .base32Err
        | some d2 => .ok ⟨[⟨HashSHA1, d1⟩, ⟨HashTTH, d2⟩]⟩
  else .ok ⟨[]⟩

/-- Body of `newURN` after the `urn:` split, on the piece `a[1]`.  The slice
`urn[len(d)+1:]` is taken without checking that the position after the tag
exists; when it does not, Go panics with a slice-bounds error, modelled by
`Err.panicSliceRange`.  When no tag matches, `ht` stays `-1`, the switch has
no matching case, and an empty URN is returned with a nil error. -/
def urnBody (tags : List (Str × HashType)) (urn : Str) : Res URN :=
  match findScheme tags (toLowerStr urn) with
  | none => .ok ⟨[]⟩
  | some (tag, ht) =>
    if urn.length < tag.length + 1 then .err .panicSliceRange
    else hashSwitch ht (urn.drop (tag.length + 1))

/-- Go `newURN`, parametrised by the order in which the scheme map is
iterated. -/
def newURNWith (tags : List (Str × HashType)) (v : Str) : Res URN :=
  let a := goSplit (mstr "urn:") v
  if a.length ≠ 2 then .err .invalidMagnet
  else urnBody tags (a.getD 1 [])

/-- Go `newURN` with the source-order tag list. -/
def newURN (v : Str) : Res URN := newURNWith hashTagList v

/-- Go `newMagnetKey`.  Note that the supplement branch calls
`strings.SplitAfterN(k, ".", 1)`, which always returns one piece, so its
`len(b) < 2` test always fails the key. -/
def newMagnetKey (k : Str) : Res magnetKey :=
  if k.length < 2 then .err .invalidMagnet
  else
    match keyTypeLookup (k.take 2) with
    | none => .err .invalidMagnet
    | some t =>
      let suplRes : Res Str :=
        if t = KeySuplement then
          let b := goSplitAfterN (mstr ".") 1 k
          if b.length < 2 then .err .invalidMagnet else .ok (b.getD 1 [])
        else .ok []
      match suplRes with
      | .err e => .err e
      | .ok supl =>
        let c := goSplit (mstr ".") k
        if c.length > 2 then .err .invalidMagnet
        else if c.length = 2 then
          match goParseInt (c.getD 1 []) with
          | none => .err .invalidMagnet
          | some v => .ok ⟨t, v, supl⟩
        else .ok ⟨t, 0, supl⟩

/-- The `switch mk.Type` of Go `(*Magnet).parseKeyVal`, dispatching on the
classified key type.  Two source peculiarities are preserved: the
`KeyExactTopic` branch appends to `ManifestTopics` (not `ExactTopics`), and
the `KeySuplement` branch assigns into the never-initialised `Suplements`
map, which in Go panics on a nil map (`Err.panicNilMap`); that branch is
unreachable because `newMagnetKey` rejects every supplement key. -/
def parseKeyValBody (tags : List (Str × HashType)) (m : Magnet) (v : Str) : KeyType → Res Magnet
  | KeyAcceptableSource =>
    match goUrlParse v with
    | none => .err .urlErr
    | some u => .ok { m with AcceptableSources := m.AcceptableSources ++ [u] }
  | KeyDisplayName =>
    match goQueryUnescape v with
    | none => .err .escapeErr
    | some u => .ok { m with DisplayNames := m.DisplayNames ++ [u] }
  | KeyKeywordTopic =>
    match goQueryUnescape v with
    | none => .err .escapeErr
    | some u => .ok { m with KeywordTopics := m.KeywordTopics ++ [u] }
  | KeyManifestTopic =>
    if List.isPrefixOf (mstr "urn") (toLowerStr v) then
      match newURNWith tags v with
      | .err e => .err e
      | .ok u => .ok { m with ManifestTopics := m.ManifestTopics ++ [.urn u] }
    else
      match goQueryUnescape v with
      | none => .err .escapeErr
      | some u => .ok { m with ManifestTopics := m.ManifestTopics ++ [.str u] }
  | KeyTrackerAddress =>
    match goQueryUnescape v with
    | none => .err .escapeErr
    | some u => .ok { m with TrackerAddresses := m.TrackerAddresses ++ [u] }
  | KeyExactLength =>
    match goParseInt v with
    | none => .err .intErr
    | some u => .ok { m with ExactLength := u }
  | KeyExactSource => .ok { m with ExactSources := m.ExactSources ++ [v] }
  | KeyExactTopic =>
    match newURNWith tags v with
    | .err e => .err e
    | .ok u => .ok { m with ManifestTopics := m.ManifestTopics ++ [.urn u] }
  | KeySuplement => .err .panicNilMap

/-- Go `(*Magnet).parseKeyVal`, with the receiver passed and returned
explicitly: classify the key, then dispatch on its type. -/
def parseKeyVal (tags : List (Str × HashType)) (m : Magnet) (k v : Str) : Res Magnet :=
  match newMagnetKey k with
  | .err e => .err e
  | .ok mk => parseKeyValBody tags m v mk.Typ

/-- One iteration of the token loop of `parseMagnet`: split the token on `=`
and read `b[0]` and `b[1]`.  The guard in the source is `len(b) < 1`, so for
a token with no `=` the read of `b[1]` is out of range and Go panics
(`Err.panicIndexRange`). -/
def parseTok (tags : List (Str × HashType)) (m : Magnet) (v : Str) : Res Magnet :=
  let b := goSplit (mstr "=") v
  if b.length < 1 then .err .invalidMagnet
  else
    match b with
    | [] => .err .invalidMagnet
    | [_] => .err .panicIndexRange
    | k :: val :: _ => parseKeyVal tags m k val

/-- The token loop of `parseMagnet`. -/
def processTokens (tags : List (Str × HashType)) (m : Magnet) : List Str → Res Magnet
  | [] => .ok m
  | v :: rest =>
    match parseTok tags m v with
    | .err e => .err e
    | .ok m2 => processTokens tags m2 rest

/-- Go `(*Magnet).parseMagnet`. -/
def parseMagnetWith (tags : List (Str × HashType)) (m : Magnet) (s : Str) : Res Magnet :=
  let a := goSplit (mstr ":?") s
  if a.length ≠ 2 then .err .invalidMagnet
  else if toLowerStr (a.getD 0 []) ≠ mstr "magnet" then .err .invalidMagnet
  else
    let toks := goSplit (mstr "&") (a.getD 1 [])
    if toks.length = 0 then .err .invalidMagnet
    else processTokens tags m toks

/-- Go `NewMagnet`, parametrised by the scheme-map iteration order. -/
def NewMagnetWith (tags : List (Str × HashType)) (s : Str) : Res Magnet :=
  parseMagnetWith tags {} s

/-- Go `NewMagnet` with the source-order tag list. -/
def NewMagnet (s : Str) : Res Magnet := NewMagnetWith hashTagList s

/-- The raw tokens a magnet string is cut into (the two top-level splits of
`parseMagnet`). -/
def magnetTokens (s : Str) : List Str :=
  goSplit (mstr "&") ((goSplit (mstr ":?") s).getD 1 [])

/-- Whether a raw token carries an exact-length key (token splits on `=` into
at least two pieces and its key classifies as `KeyExactLength`). -/
def isXlTok (v : Str) : Bool :=
  match goSplit (mstr "=") v with
  | k :: _ :: _ =>
    match newMagnetKey k with
    | .ok mk => decide (mk.Typ = KeyExactLength)
    | .err _ => false
  | _ => false

/-- The value piece of a raw token (the `b[1]` the source reads). -/
def tokVal (v : Str) : Str := (goSplit (mstr "=") v).getD 1 []

/-! ## Lemmas about the string primitives -/

/-- A list is a Boolean prefix of itself followed by anything. -/
lemma isPre_self (l t : Str) : List.isPrefixOf l (l ++ t) = true := by
  rw [ List.isPrefixOf_iff_prefix]
  exact List.prefix_append l t

/-- Soundness of `breakOn`: a hit decomposes the string. -/
lemma breakOn_sound (sep : Str) :
    ∀ s pre post, breakOn sep s = some (pre, post) → s = pre ++ sep ++ post := by
  intro s
  induction s with
  | nil => intro pre post h; simp [breakOn] at h
  | cons c rest ih =>
    intro pre post h
    rw [breakOn] at h
    by_cases hp : List.isPrefixOf sep (c :: rest) = true
    · rw [if_pos hp] at h
      have hpre : sep <+: (c :: rest) := ( List.isPrefixOf_iff_prefix).mp hp
      obtain ⟨t, ht⟩ := hpre
      have hdrop : (c :: rest).drop sep.length = t := by
        rw [← ht, List.drop_left]
      simp only [Option.some.injEq, Prod.mk.injEq] at h
      obtain ⟨h1, h2⟩ := h
      subst h1
      rw [← h2, hdrop, ← ht]
      simp
    · rw [if_neg hp] at h
      cases hb : breakOn sep rest with
      | none => rw [hb] at h; simp at h
      | some pq =>
        obtain ⟨p2, q2⟩ := pq
        rw [hb] at h
        simp only [Option.some.injEq, Prod.mk.injEq] at h
        obtain ⟨h1, h2⟩ := h
        subst h1
        subst h2
        have := ih p2 q2 hb
        simp [this]

/-- If some character of `sep` does not occur in `s`, then `sep` does not
occur in `s`. -/
lemma breakOn_none_missing (sep s : Str) (c : Char) (hc : c ∈ sep) (hs : c ∉ s) :
    breakOn sep s = none := by
  cases hb : breakOn sep s with
  | none => rfl
  | some pq =>
    obtain ⟨pre, post⟩ := pq
    have hdec := breakOn_sound sep s pre post hb
    exact absurd (by rw [hdec]; simp [hc]) hs

/-- When the first character of `sep` does not occur in `p`, the first
occurrence of `sep` in `p ++ sep ++ t` is the explicit one. -/
lemma breakOn_first (c0 : Char) (sep2 p t : Str) (hp : c0 ∉ p) :
    breakOn (c0 :: sep2) (p ++ (c0 :: sep2) ++ t) = some (p, t) := by
  induction p with
  | nil =>
    show breakOn (c0 :: sep2) (c0 :: (sep2 ++ t)) = some ([], t)
    rw [breakOn]
    have hpre : List.isPrefixOf (c0 :: sep2) (c0 :: (sep2 ++ t)) = true := isPre_self _ t
    rw [if_pos hpre]
    have : (c0 :: (sep2 ++ t)).drop (c0 :: sep2).length = t := by
      show (sep2 ++ t).drop sep2.length = t
      exact List.drop_left sep2 t
    rw [this]
  | cons a p2 ih =>
    have ha : ¬(c0 = a) := fun h => hp (by simp [h])
    show breakOn (c0 :: sep2) (a :: (p2 ++ (c0 :: sep2) ++ t)) = some (a :: p2, t)
    rw [breakOn]
    have hno : List.isPrefixOf (c0 :: sep2) (a :: (p2 ++ (c0 :: sep2) ++ t)) = false := by
      show (c0 == a && List.isPrefixOf sep2 (p2 ++ (c0 :: sep2) ++ t)) = false
      have : (c0 == a) = false := by simp [ha]
      rw [this, Bool.false_and]
    rw [if_neg (by rw [hno]; exact Bool.false_ne_true)]
    rw [ih (fun h => hp (by simp [h]))]

/-- A hit strictly shrinks the remaining text (for non-empty separators). -/
lemma breakOn_some_len (sep : Str) (hsep : sep ≠ []) :
    ∀ s pre post, breakOn sep s = some (pre, post) → post.length < s.length := by
  intro s pre post h
  have hdec := breakOn_sound sep s pre post h
  rw [hdec]
  have : 0 < sep.length := List.length_pos.mpr hsep
  simp [List.length_append]
  omega

/-- The fuelled splitter is fuel-irrelevant above the input length. -/
lemma splitFuel_high (sep : Str) (hsep : sep ≠ []) :
    ∀ f g s, s.length < f → s.length < g → splitFuel sep f s = splitFuel sep g s := by
  intro f
  induction f with
  | zero => intro g s hf _; omega
  | succ f2 ih =>
    intro g s hf hg
    cases g with
    | zero => omega
    | succ g2 =>
      rw [splitFuel, splitFuel]
      cases hb : breakOn sep s with
      | none => rfl
      | some pq =>
        obtain ⟨pre, post⟩ := pq
        have hlt := breakOn_some_len sep hsep s pre post hb
        simp only []
        rw [ih g2 post (by omega) (by omega)]

/-- Unfolding `goSplit` at a hit. -/
lemma goSplit_break (sep s pre post : Str) (hsep : sep ≠ []) (h : breakOn sep s = some (pre, post)) :
    goSplit sep s = pre :: goSplit sep post := by
  unfold goSplit
  rw [splitFuel, h]
  have hlt := breakOn_some_len sep hsep s pre post h
  show pre :: splitFuel sep s.length post = pre :: splitFuel sep (post.length + 1) post
  rw [splitFuel_high sep hsep s.length (post.length + 1) post (by omega) (by omega)]

/-- Unfolding `goSplit` with no hit. -/
lemma goSplit_none (sep s : Str) (h : breakOn sep s = none) : goSplit sep s = [s] := by
  unfold goSplit
  rw [splitFuel, h]

/-- A string with exactly one marked occurrence of the separator splits into
the two surrounding pieces. -/
lemma goSplit_two (c0 : Char) (sep2 p t : Str) (hp : c0 ∉ p)
    (ht : breakOn (c0 :: sep2) t = none) :
    goSplit (c0 :: sep2) (p ++ (c0 :: sep2) ++ t) = [p, t] := by
  rw [goSplit_break (c0 :: sep2) _ p t (by simp) (breakOn_first c0 sep2 p t hp),
    goSplit_none _ t ht]

/-- Lower-casing distributes over append. -/
lemma toLowerStr_append (a b : Str) : toLowerStr (a ++ b) = toLowerStr a ++ toLowerStr b :=
  List.map_append lowChar a b

/-! ## Claims -/

/-- C1 (code bug witness): on a well-formed single-`xt` magnet string the
parse succeeds, but the `KeyExactTopic` branch appends the parsed Urn to
`ManifestTopics`; `ExactTopics` (every omitted field below is its default,
in particular `ExactTopics := []`) stays empty, contradicting the claim that
the value lands in the exact-topics sequence. -/
theorem c1_exact_topic_misrouted :
    NewMagnet (mstr "magnet:?xt=urn:sha1:YNCKHTQCWBTRNJIV4WNAE52SJUQCZO5C") =
      .ok { ManifestTopics := [.urn ⟨[⟨HashSHA1,
        [195, 68, 163, 206, 2, 176, 103, 22, 165, 21, 229, 154, 2, 119, 82, 77,
         32, 44, 187, 162]⟩]⟩] } := by
  decide

/-- C2 (code bug witness): every supplement key is rejected with the
invalid-magnet error, because `strings.SplitAfterN(k, ".", 1)` always returns
a single piece, so the `len(b) < 2` guard always fires; classification never
succeeds and nothing is ever appended to the supplement map. -/
theorem c2_supplement_always_rejected :
    NewMagnet (mstr "magnet:?x.foo=bar") = .err .invalidMagnet
    ∧ newMagnetKey (mstr "x.foo") = .err .invalidMagnet
    ∧ newMagnetKey (mstr "x.1") = .err .invalidMagnet := by
  decide

/-- C3 counterexample: a `urn:md5:` URN parses successfully to a Urn with
zero hashes — no error outcome at all, refuting the claimed explicit
UnsupportedHashScheme failure. -/
theorem c3_md5_counterexample : newURN (mstr "urn:md5:00") = .ok ⟨[]⟩ := by decide

/-- C3 amended: for every `urn:md5:<payload>` URN (payload after the colon),
parsing silently succeeds with a Urn containing zero hashes; the md5 tag is
recognised but the decode switch has no md5 case, and no error is raised. -/
theorem c3_md5_silent_empty (hd : Str) (hu : 'u' ∉ hd) :
    newURN (mstr "urn:md5:" ++ hd) = .ok ⟨[]⟩ := by
  have hassoc : mstr "urn:md5:" ++ hd = mstr "urn:" ++ (mstr "md5:" ++ hd) := rfl
  have hnone : breakOn (mstr "urn:") (mstr "md5:" ++ hd) = none := by
    apply breakOn_none_missing _ _ 'u' (by decide)
    intro hmem
    rcases List.mem_append.mp hmem with h | h
    · exact absurd h (by decide)
    · exact hu h
  have hsplit : goSplit (mstr "urn:") (mstr "urn:" ++ (mstr "md5:" ++ hd)) =
      [[], mstr "md5:" ++ hd] :=
    goSplit_two 'u' (mstr "rn:") [] (mstr "md5:" ++ hd) (by decide) hnone
  rw [hassoc]
  simp only [newURN, newURNWith]
  rw [hsplit]
  rfl

/-- C3 amended, witness at a concrete payload. -/
theorem c3_md5_silent_empty_witness :
    ('u' ∉ mstr "0") ∧ newURN (mstr "urn:md5:" ++ mstr "0") = .ok ⟨[]⟩ :=
  ⟨by decide, c3_md5_silent_empty (mstr "0") (by decide)⟩

/-- C4 (code bug witness): a magnet URI with an empty query, or any token
without an `=` separator, makes the token loop read `b[1]` out of range — a
runtime panic, not the claimed malformed-URI error return. -/
theorem c4_no_separator_panics :
    NewMagnet (mstr "magnet:?") = .err .panicIndexRange
    ∧ NewMagnet (mstr "magnet:?foo") = .err .panicIndexRange := by
  decide

/-- C5 counterexample: non-empty text before `urn:` does not make the URN
parser fail — `XXurn:sha1:` parses successfully (empty base-32 payload). -/
theorem c5_text_before_urn_accepted :
    newURN (mstr "XXurn:sha1:") = .ok ⟨[⟨HashSHA1, []⟩]⟩ := by decide

/-- C5 amended: the URN parser only checks that splitting on every occurrence
of `urn:` yields exactly two pieces; the piece before the separator is
ignored, never compared with the empty string, so any leading text (without a
`u`, so that no extra occurrence arises) leaves the result unchanged. -/
theorem c5_leading_text_ignored (p hd : Str) (hp : 'u' ∉ p) :
    newURN (p ++ mstr "urn:" ++ hd) = newURN (mstr "urn:" ++ hd) := by
  simp only [newURN, newURNWith]
  have h1 : goSplit (mstr "urn:") (p ++ mstr "urn:" ++ hd) = p :: goSplit (mstr "urn:") hd :=
    goSplit_break _ _ p hd (by decide) (breakOn_first 'u' (mstr "rn:") p hd hp)
  have h2 : goSplit (mstr "urn:") (mstr "urn:" ++ hd) = [] :: goSplit (mstr "urn:") hd := by
    have hb := breakOn_first 'u' (mstr "rn:") [] hd (by decide)
    exact goSplit_break _ _ [] hd (by decide) (by simpa using hb)
  rw [h1, h2]
  rfl

/-- C5 amended, witness at concrete leading text. -/
theorem c5_leading_text_ignored_witness :
    ('u' ∉ mstr "XX")
    ∧ newURN (mstr "XX" ++ mstr "urn:" ++ mstr "sha1:") = newURN (mstr "urn:" ++ mstr "sha1:") :=
  ⟨by decide, c5_leading_text_ignored (mstr "XX") (mstr "sha1:") (by decide)⟩

/-- C7 counterexample: a key whose second segment is a negative integer is
accepted, with the negative value stored as the index — refuting the claimed
non-negativity requirement. -/
theorem c7_negative_index_accepted :
    newMagnetKey (mstr "dn.-1") = .ok ⟨KeyDisplayName, -1, []⟩ := by decide

/-- C7 amended: for a two-segment key the second segment must parse under Go
Atoi semantics — an optional sign followed by digits — so negative indices
are accepted and stored, non-numeric segments fail, and a key with more than
two segments fails. -/
theorem c7_index_atoi (seg seg2 : Str) (h1 : '.' ∉ seg) (h2 : '.' ∉ seg2) :
    (newMagnetKey (mstr "dn." ++ seg) =
      match goParseInt seg with
      | none => .err .invalidMagnet
      | some v => .ok ⟨KeyDisplayName, v, []⟩)
    ∧ newMagnetKey (mstr "dn." ++ seg ++ mstr "." ++ seg2) = .err .invalidMagnet := by
  have hs1 : goSplit (mstr ".") (mstr "dn." ++ seg) = [mstr "dn", seg] := by
    have hb : breakOn (mstr ".") seg = none :=
      breakOn_none_missing _ _ '.' (by decide) h1
    exact goSplit_two '.' [] (mstr "dn") seg (by decide) hb
  have hs2 : goSplit (mstr ".") (mstr "dn." ++ seg ++ mstr "." ++ seg2) =
      [mstr "dn", seg, seg2] := by
    have hb2 : breakOn (mstr ".") seg2 = none :=
      breakOn_none_missing _ _ '.' (by decide) h2
    have hinner : goSplit (mstr ".") (seg ++ mstr "." ++ seg2) = [seg, seg2] :=
      goSplit_two '.' [] seg seg2 h1 hb2
    have hfirst : breakOn (mstr ".") (mstr "dn." ++ seg ++ mstr "." ++ seg2) =
        some (mstr "dn", seg ++ mstr "." ++ seg2) := by
      have hform : mstr "dn." ++ seg ++ mstr "." ++ seg2 =
          mstr "dn" ++ mstr "." ++ (seg ++ mstr "." ++ seg2) := by
        simp [mstr, List.append_assoc]
      rw [hform]
      exact breakOn_first '.' [] (mstr "dn") (seg ++ mstr "." ++ seg2) (by decide)
    rw [goSplit_break _ _ _ _ (by decide) hfirst, hinner]
  constructor
  · simp only [newMagnetKey]
    rw [hs1]
    rfl
  · simp only [newMagnetKey]
    rw [hs2]
    rfl

/-- C7 amended, witness: a concrete negative index is accepted and a concrete
three-segment key is rejected. -/
theorem c7_index_atoi_witness :
    (newMagnetKey (mstr "dn." ++ mstr "-1") =
      match goParseInt (mstr "-1") with
      | none => .err .invalidMagnet
      | some v => .ok ⟨KeyDisplayName, v, []⟩)
    ∧ newMagnetKey (mstr "dn." ++ mstr "-1" ++ mstr "." ++ mstr "2") = .err .invalidMagnet :=
  c7_index_atoi (mstr "-1") (mstr "2") (by decide) (by decide)

/-- C10 (code bug witness): when the text after `urn:` is exactly a
recognised scheme tag, the slice `urn[len(tag)+1:]` is out of bounds and Go
panics with a slice-bounds error instead of returning a value or an error. -/
theorem c10_bare_scheme_tag_panics :
    NewMagnet (mstr "magnet:?xt=urn:sha1") = .err .panicSliceRange
    ∧ newURN (mstr "urn:sha1") = .err .panicSliceRange
    ∧ newURN (mstr "urn:md5") = .err .panicSliceRange := by
  decide

/-- C6: a BitPrint URN payload must split on the dot into exactly two
segments, anything else failing with the invalid-magnet error; when it does,
both segments are base-32 decoded — a decode failure of either segment is
the decode error, and on success the Urn holds exactly a SHA1 hash from the
first segment followed by a TigerTreeHash from the second. -/
theorem c6_bitprint (hd s1 s2 : Str) (hu : 'u' ∉ hd) :
    ((goSplit (mstr ".") hd).length ≠ 2 →
      newURN (mstr "urn:bitprint:" ++ hd) = .err .invalidMagnet)
    ∧ (goSplit (mstr ".") hd = [s1, s2] →
      newURN (mstr "urn:bitprint:" ++ hd) =
        match goBase32Decode s1 with
        | none => .err .base32Err
        | some d1 =>
          match goBase32Decode s2 with
          | none => .err .base32Err
          | some d2 => .ok ⟨[⟨HashSHA1, d1⟩, ⟨HashTTH, d2⟩]⟩) := by
  have hassoc : mstr "urn:bitprint:" ++ hd = mstr "urn:" ++ (mstr "bitprint:" ++ hd) := rfl
  have hnone : breakOn (mstr "urn:") (mstr "bitprint:" ++ hd) = none := by
    apply breakOn_none_missing _ _ 'u' (by decide)
    intro hmem
    rcases List.mem_append.mp hmem with h | h
    · exact absurd h (by decide)
    · exact hu h
  have hsplit : goSplit (mstr "urn:") (mstr "urn:" ++ (mstr "bitprint:" ++ hd)) =
      [[], mstr "bitprint:" ++ hd] :=
    goSplit_two 'u' (mstr "rn:") [] (mstr "bitprint:" ++ hd) (by decide) hnone
  have hbody : newURN (mstr "urn:bitprint:" ++ hd) = hashSwitch HashBitPrint hd := by
    rw [hassoc]
    simp only [newURN, newURNWith]
    rw [hsplit]
    rfl
  constructor
  · intro hne
    rw [hbody]
    simp only [hashSwitch]
    rw [if_neg (by decide), if_neg (by decide), if_pos trivial, if_pos hne]
  · intro hsp
    rw [hbody]
    simp only [hashSwitch]
    rw [if_neg (by decide), if_neg (by decide), if_pos trivial, hsp]
    rfl

/-- C6, witness: a concrete two-segment bitprint payload decodes to the
SHA1-then-TigerTreeHash pair. -/
theorem c6_bitprint_witness :
    newURN (mstr "urn:bitprint:" ++ mstr "AAAAAAAA.CCCCCCCC") =
      match goBase32Decode (mstr "AAAAAAAA") with
      | none => .err .base32Err
      | some d1 =>
        match goBase32Decode (mstr "CCCCCCCC") with
        | none => .err .base32Err
        | some d2 => .ok ⟨[⟨HashSHA1, d1⟩, ⟨HashTTH, d2⟩]⟩ :=
  (c6_bitprint (mstr "AAAAAAAA.CCCCCCCC") (mstr "AAAAAAAA") (mstr "CCCCCCCC")
    (by decide)).2 (by decide)

/-! ## Exact-length accumulation (claim C8) -/

/-- The exact-length branch of the dispatcher, as an equation. -/
lemma parseKeyVal_el (tags : List (Str × HashType)) (m : Magnet) (k v : Str) (mk : magnetKey)
    (hmk : newMagnetKey k = .ok mk) (ht : mk.Typ = KeyExactLength) :
    parseKeyVal tags m k v =
      match goParseInt v with
      | none => .err .intErr
      | some n => .ok { m with ExactLength := n } := by
  unfold parseKeyVal
  rw [hmk]
  show parseKeyValBody tags m v mk.Typ = _
  rw [ht]
  rfl

/-- Every non-exact-length branch of the dispatcher leaves `ExactLength`
untouched. -/
lemma parseKeyVal_keeps_el (tags : List (Str × HashType)) (m : Magnet) (k v : Str) (m2 : Magnet)
    (h : parseKeyVal tags m k v = .ok m2)
    (hk : ∀ mk, newMagnetKey k = .ok mk → mk.Typ ≠ KeyExactLength) :
    m2.ExactLength = m.ExactLength := by
  unfold parseKeyVal at h
  cases hmk : newMagnetKey k with
  | err e => rw [hmk] at h; simp at h
  | ok mk =>
    rw [hmk] at h
    have h2 : parseKeyValBody tags m v mk.Typ = .ok m2 := h
    have hne := hk mk hmk
    cases htyp : mk.Typ <;> rw [htyp] at h2
    case KeyExactLength => exact absurd htyp hne
    all_goals simp only [parseKeyValBody] at h2
    all_goals repeat' split at h2
    all_goals first
      | exact Res.noConfusion h2
      | (simp only [Res.ok.injEq] at h2; subst h2; rfl)

/-- Over a token list, a successful run of the token loop gives the magnet
whose exact length is the value of the last exact-length token, or the
initial exact length when there is none. -/
lemma processTokens_xl (tags : List (Str × HashType)) :
    ∀ toks m m2, processTokens tags m toks = .ok m2 →
      (match (toks.filter isXlTok).getLast? with
       | none => m2.ExactLength = m.ExactLength
       | some w => ∃ n, goParseInt (tokVal w) = some n ∧ m2.ExactLength = n) := by
  intro toks
  induction toks with
  | nil =>
    intro m m2 h
    simp only [processTokens] at h
    simp only [Res.ok.injEq] at h
    subst h
    exact rfl
  | cons v rest ih =>
    intro m m2 h
    simp only [processTokens] at h
    cases hpt : parseTok tags m v with
    | err e => rw [hpt] at h; simp at h
    | ok m1 =>
      rw [hpt] at h
      unfold parseTok at hpt
      cases hsp : goSplit (mstr "=") v with
      | nil => rw [hsp] at hpt; simp at hpt
      | cons k btail =>
        cases btail with
        | nil => rw [hsp] at hpt; simp at hpt
        | cons val brest =>
          rw [hsp] at hpt
          have hpkv : parseKeyVal tags m k val = .ok m1 := hpt
          by_cases hxl : isXlTok v = true
          · have hxk : ∃ mk, newMagnetKey k = .ok mk ∧ mk.Typ = KeyExactLength := by
              unfold isXlTok at hxl
              rw [hsp] at hxl
              have hxl2 : (match newMagnetKey k with
                  | Res.ok mk => decide (mk.Typ = KeyExactLength)
                  | Res.err _ => false) = true := hxl
              cases hmk : newMagnetKey k with
              | err e => rw [hmk] at hxl2; simp at hxl2
              | ok mk =>
                rw [hmk] at hxl2
                exact ⟨mk, rfl, of_decide_eq_true hxl2⟩
            obtain ⟨mk, hmk, htyp⟩ := hxk
            rw [parseKeyVal_el tags m k val mk hmk htyp] at hpkv
            cases hpi : goParseInt val with
            | none => rw [hpi] at hpkv; simp at hpkv
            | some n =>
              rw [hpi] at hpkv
              simp only [Res.ok.injEq] at hpkv
              have hel : m1.ExactLength = n := by rw [← hpkv]
              have ihh := ih m1 m2 h
              rw [List.filter_cons_of_pos hxl]
              cases hrest : rest.filter isXlTok with
              | nil =>
                rw [hrest] at ihh
                have h2 : m2.ExactLength = m1.ExactLength := ihh
                show ∃ n2, goParseInt (tokVal v) = some n2 ∧ m2.ExactLength = n2
                refine ⟨n, ?_, h2.trans hel⟩
                unfold tokVal
                rw [hsp]
                exact hpi
              | cons x xs =>
                rw [hrest] at ihh
                rw [List.getLast?_cons_cons]
                cases hw : (x :: xs).getLast? with
                | none => simp at hw
                | some w =>
                  rw [hw] at ihh
                  exact ihh
          · have hne : ∀ mk, newMagnetKey k = .ok mk → mk.Typ ≠ KeyExactLength := by
              intro mk hmk htyp
              apply hxl
              unfold isXlTok
              rw [hsp]
              show (match newMagnetKey k with
                | Res.ok mk1 => decide (mk1.Typ = KeyExactLength)
                | Res.err _ => false) = true
              rw [hmk]
              show decide (mk.Typ = KeyExactLength) = true
              rw [htyp]
              decide
            have hel : m1.ExactLength = m.ExactLength :=
              parseKeyVal_keeps_el tags m k val m1 hpkv hne
            have ihh := ih m1 m2 h
            rw [List.filter_cons_of_neg (by simpa using hxl)]
            cases hw : (rest.filter isXlTok).getLast? with
            | none =>
              rw [hw] at ihh
              show m2.ExactLength = m.ExactLength
              exact Eq.trans ihh hel
            | some w =>
              rw [hw] at ihh
              exact ihh

/-- A successful top-level parse is a successful run of the token loop over
the magnet's raw tokens, starting from the empty record. -/
lemma NewMagnet_toks (s : Str) (m2 : Magnet) (h : NewMagnet s = .ok m2) :
    processTokens hashTagList {} (magnetTokens s) = .ok m2 := by
  simp only [NewMagnet, NewMagnetWith, parseMagnetWith] at h
  unfold magnetTokens
  by_cases h1 : (goSplit (mstr ":?") s).length ≠ 2
  · rw [if_pos h1] at h; simp at h
  · rw [if_neg h1] at h
    by_cases h2 : toLowerStr ((goSplit (mstr ":?") s).getD 0 []) ≠ mstr "magnet"
    · rw [if_pos h2] at h; simp at h
    · rw [if_neg h2] at h
      by_cases h3 : (goSplit (mstr "&") ((goSplit (mstr ":?") s).getD 1 [])).length = 0
      · rw [if_pos h3] at h; simp at h
      · rw [if_neg h3] at h; exact h

/-- C8: on every successful parse, the exact length is the parsed base-10
64-bit value of the last exact-length token (last key wins), and zero when no
such token occurs; and a non-numeric exact-length value fails with the
integer-parse error. -/
theorem c8_exact_length_last_wins :
    (∀ s m2, NewMagnet s = .ok m2 →
      match ((magnetTokens s).filter isXlTok).getLast? with
      | none => m2.ExactLength = 0
      | some w => ∃ n, goParseInt (tokVal w) = some n ∧ m2.ExactLength = n)
    ∧ (∀ tags m v, goParseInt v = none →
        parseKeyVal tags m (mstr "xl") v = .err .intErr) := by
  constructor
  · intro s m2 h
    have ht := processTokens_xl hashTagList (magnetTokens s) {} m2 (NewMagnet_toks s m2 h)
    cases hw : ((magnetTokens s).filter isXlTok).getLast? with
    | none => rw [hw] at ht; exact ht
    | some w => rw [hw] at ht; exact ht
  · intro tags m v hv
    rw [parseKeyVal_el tags m (mstr "xl") v ⟨KeyExactLength, 0, []⟩ (by decide) rfl, hv]

/-- C8, witness: two exact-length tokens, the later one (value 7) wins; and a
non-numeric value fails. -/
theorem c8_exact_length_last_wins_witness :
    (∃ n, goParseInt (tokVal (mstr "xl=7")) = some n
      ∧ ({ ExactLength := 7 } : Magnet).ExactLength = n)
    ∧ parseKeyVal hashTagList {} (mstr "xl") (mstr "seven") = .err .intErr := by
  constructor
  · exact c8_exact_length_last_wins.1 (mstr "magnet:?xl=5&xl=7") { ExactLength := 7 } (by decide)
  · exact c8_exact_length_last_wins.2 hashTagList {} (mstr "seven") (by decide)

/-! ## Order-independence of the scheme-map scan (claim C9) -/

/-- A hit of the scheme scan is a matching member of the list. -/
lemma findScheme_mem : ∀ (l : List (Str × HashType)) (u : Str) (p : Str × HashType),
    findScheme l u = some p → p ∈ l ∧ List.isPrefixOf p.1 u = true := by
  intro l
  induction l with
  | nil => intro u p h; simp [findScheme] at h
  | cons q rest ih =>
    intro u p h
    simp only [findScheme] at h
    by_cases hq : List.isPrefixOf q.1 u = true
    · rw [if_pos hq] at h
      simp only [Option.some.injEq] at h
      subst h
      exact ⟨List.mem_cons_self q rest, hq⟩
    · rw [if_neg hq] at h
      have hr := ih u p h
      exact ⟨List.mem_cons_of_mem q hr.1, hr.2⟩

/-- A miss of the scheme scan means no member matches. -/
lemma findScheme_none : ∀ (l : List (Str × HashType)) (u : Str),
    findScheme l u = none → ∀ p ∈ l, List.isPrefixOf p.1 u = false := by
  intro l
  induction l with
  | nil => intro u _ p hp; simp at hp
  | cons q rest ih =>
    intro u h p hp
    simp only [findScheme] at h
    by_cases hq : List.isPrefixOf q.1 u = true
    · rw [if_pos hq] at h; simp at h
    · rw [if_neg hq] at h
      rcases List.mem_cons.mp hp with rfl | hmem
      · cases hb : List.isPrefixOf p.1 u with
        | false => rfl
        | true => exact absurd hb hq
      · exact ih u h p hmem

/-- When at most one member can match, the scan does not depend on the order
of the list. -/
lemma findScheme_perm (l1 l2 : List (Str × HashType)) (u : Str) (hp : l1.Perm l2)
    (huniq : ∀ p ∈ l1, ∀ q ∈ l1, List.isPrefixOf p.1 u = true →
      List.isPrefixOf q.1 u = true → p = q) :
    findScheme l1 u = findScheme l2 u := by
  cases h1 : findScheme l1 u with
  | none =>
    cases h2 : findScheme l2 u with
    | none => rfl
    | some p =>
      have hm := findScheme_mem l2 u p h2
      have hf := findScheme_none l1 u h1 p (hp.mem_iff.mpr hm.1)
      rw [hm.2] at hf
      simp at hf
  | some p =>
    have hm1 := findScheme_mem l1 u p h1
    cases h2 : findScheme l2 u with
    | none =>
      have hf := findScheme_none l2 u h2 p (hp.mem_iff.mp hm1.1)
      rw [hm1.2] at hf
      simp at hf
    | some q =>
      have hm2 := findScheme_mem l2 u q h2
      rw [huniq p hm1.1 q (hp.mem_iff.mpr hm2.1) hm1.2 hm2.2]

/-- The eight scheme tags are mutually prefix-free, so at most one of them
can be a prefix of any given payload. -/
lemma tags_uniq (u : Str) : ∀ p ∈ hashTagList, ∀ q ∈ hashTagList,
    List.isPrefixOf p.1 u = true → List.isPrefixOf q.1 u = true → p = q := by
  intro p hp q hq h1 h2
  have h1p : p.1 <+: u := ( List.isPrefixOf_iff_prefix).mp h1
  have h2p : q.1 <+: u := ( List.isPrefixOf_iff_prefix).mp h2
  have key : ∀ a ∈ hashTagList, ∀ b ∈ hashTagList,
      (a.1 <+: b.1 ∨ b.1 <+: a.1) → a = b := by decide
  exact key p hp q hq ( List.prefix_or_prefix_of_prefix h1p h2p)

/-- The URN parser does not depend on the iteration order of the scheme map. -/
lemma newURNWith_perm (l : List (Str × HashType)) (hl : l.Perm hashTagList) (v : Str) :
    newURNWith l v = newURNWith hashTagList v := by
  simp only [newURNWith, urnBody]
  rw [findScheme_perm l hashTagList (toLowerStr ((goSplit (mstr "urn:") v).getD 1 [])) hl
    (fun p hp q hq => tags_uniq _ p (hl.subset hp) q (hl.subset hq))]

/-- The value dispatcher does not depend on the iteration order of the
scheme map. -/
lemma parseKeyVal_perm (l : List (Str × HashType)) (hl : l.Perm hashTagList)
    (m : Magnet) (k v : Str) :
    parseKeyVal l m k v = parseKeyVal hashTagList m k v := by
  unfold parseKeyVal
  cases newMagnetKey k with
  | err e => rfl
  | ok mk =>
    show parseKeyValBody l m v mk.Typ = parseKeyValBody hashTagList m v mk.Typ
    cases mk.Typ <;>
      first
      | rfl
      | (simp only [parseKeyValBody]; rw [newURNWith_perm l hl])

/-- One token-loop step does not depend on the iteration order of the scheme
map. -/
lemma parseTok_perm (l : List (Str × HashType)) (hl : l.Perm hashTagList) (m : Magnet) (v : Str) :
    parseTok l m v = parseTok hashTagList m v := by
  unfold parseTok
  simp only [parseKeyVal_perm l hl]

/-- The token loop does not depend on the iteration order of the scheme map. -/
lemma processTokens_perm (l : List (Str × HashType)) (hl : l.Perm hashTagList) :
    ∀ toks m, processTokens l m toks = processTokens hashTagList m toks := by
  intro toks
  induction toks with
  | nil => intro m; rfl
  | cons v rest ih =>
    intro m
    simp only [processTokens, parseTok_perm l hl]
    cases parseTok hashTagList m v with
    | err e => rfl
    | ok m1 => exact ih m1

/-- C9: parsing is a pure function of the input and of the contents of the
scheme map only — iterating the map entries in any other order yields the
same parse on every input, because no two distinct scheme tags can both be a
prefix of the same payload (the tag set is mutually prefix-free). -/
theorem c9_order_independent :
    (∀ l, l.Perm hashTagList → ∀ s, NewMagnetWith l s = NewMagnet s)
    ∧ (∀ p, p ∈ hashTagList → ∀ q, q ∈ hashTagList → ∀ u : Str,
        p.1 <+: u → q.1 <+: u → p = q) := by
  constructor
  · intro l hl s
    simp only [NewMagnetWith, NewMagnet, parseMagnetWith]
    rw [processTokens_perm l hl]
  · intro p hp q hq u h1 h2
    have key : ∀ a ∈ hashTagList, ∀ b ∈ hashTagList,
        (a.1 <+: b.1 ∨ b.1 <+: a.1) → a = b := by decide
    exact key p hp q hq ( List.prefix_or_prefix_of_prefix h1 h2)

/-- C9, witness: the reversed scheme list parses a concrete magnet string to
the same result, and two concrete matching prefixes of one payload coincide. -/
theorem c9_order_independent_witness :
    NewMagnetWith hashTagList.reverse (mstr "magnet:?dn=a") = NewMagnet (mstr "magnet:?dn=a")
    ∧ (mstr "sha1", HashSHA1) = (mstr "sha1", HashSHA1) := by
  constructor
  · exact c9_order_independent.1 hashTagList.reverse (by decide) (mstr "magnet:?dn=a")
  · exact c9_order_independent.2 (mstr "sha1", HashSHA1) (by decide) (mstr "sha1", HashSHA1)
      (by decide) (mstr "sha1x") (by decide) (by decide)

end MagnetModel
